import Mathlib

/-!
Verification of the combinatorial selection engine and line processing of the
packer repository (src/packer.ts and its variants).

Modelling conventions for the shallow embedding:
* JavaScript numbers are modelled as rationals. Item weights and costs, the
  accumulated totals, and the capacity are rationals; the resultObj field
  maxWeight, initialised to Infinity in the source, is modelled as WithTop Q
  with Infinity as the top element.
* The mutable resultObj threaded through DefaultItemSelector.selectItems is
  modelled by explicit state passing: each call returns the resultObj value it
  leaves behind.
* Strings are List Char; a thrown APIException is an Except.error carrying the
  exception message.
-/

namespace Packer

/-! ## Definitions -/

/-- An item as parsed by the packer (src/packer.ts, interface Item):
an index, a weight and a cost.  Weights and costs are JavaScript numbers,
modelled as rationals. -/
structure Item where
  index : Nat
  weight : ℚ
  cost : ℚ
deriving DecidableEq

/-- The resultObj record of DefaultItemPacker.pack (src/packer.ts lines
154-162): maxCost, maxWeight and maxSelectedItems.  maxWeight starts as
Infinity, modelled as the top element of WithTop Q. -/
structure ResultObj where
  maxCost : ℚ
  maxWeight : WithTop ℚ
  maxSelectedItems : List Item
deriving DecidableEq

/-- Total weight of a list of items. -/
def weightSum (l : List Item) : ℚ := (l.map Item.weight).sum

/-- Total cost of a list of items. -/
def costSum (l : List Item) : ℚ := (l.map Item.cost).sum

/-- The candidate-evaluation step of DefaultItemSelector.selectItems
(src/packer.ts lines 81-88): a strictly higher cost replaces the best result;
on equal cost a strictly lower weight replaces it; otherwise the best result
is kept.  The spread copies of selectedItems are value copies, so the record
simply stores the list. -/
def update (totalCost totalWeight : ℚ) (selectedItems : List Item)
    (r : ResultObj) : ResultObj :=
  if totalCost > r.maxCost then
    { maxCost := totalCost, maxWeight := (totalWeight : WithTop ℚ),
      maxSelectedItems := selectedItems }
  else if totalCost = r.maxCost ∧ (totalWeight : WithTop ℚ) < r.maxWeight then
    { maxCost := r.maxCost, maxWeight := (totalWeight : WithTop ℚ),
      maxSelectedItems := selectedItems }
  else r

/-- The for loop of DefaultItemSelector.selectItems (src/packer.ts lines
90-101): for each position i the method recurses on the suffix
items.slice(i + 1) with the item at i added to the accumulators.  The body of
the nested selectItems call (its capacity guard and candidate evaluation,
lines 77-88) is inlined one step so that the recursion is structural; the
original mutually recursive equations are recovered below as
selectItems_nil, selectItems_cons and selectLoop_cons. -/
def selectLoop (packageLimit : ℚ) :
    List Item → ℚ → ℚ → List Item → ResultObj → ResultObj
  | [], _, _, _, r => r
  | item :: remaining, totalWeight, totalCost, selectedItems, r =>
      selectLoop packageLimit remaining totalWeight totalCost selectedItems
        (if totalWeight + item.weight > packageLimit then r
         else
           selectLoop packageLimit remaining (totalWeight + item.weight)
             (totalCost + item.cost) (selectedItems ++ [item])
             (update (totalCost + item.cost) (totalWeight + item.weight)
               (selectedItems ++ [item]) r))

/-- DefaultItemSelector.selectItems (src/packer.ts lines 69-102): return
unchanged if the accumulated weight exceeds the limit, otherwise evaluate the
current selection as a candidate and run the loop over the remaining items. -/
def selectItems (items : List Item) (packageLimit : ℚ)
    (totalWeight totalCost : ℚ) (selectedItems : List Item)
    (resultObj : ResultObj) : ResultObj :=
  if totalWeight > packageLimit then resultObj
  else
    selectLoop packageLimit items totalWeight totalCost selectedItems
      (update totalCost totalWeight selectedItems resultObj)

/-- The initial resultObj of DefaultItemPacker.pack (src/packer.ts lines
154-162): maxCost 0, maxWeight Infinity, no selected items. -/
def initResult : ResultObj :=
  { maxCost := 0, maxWeight := ⊤, maxSelectedItems := [] }

/-- One full run of the selector as invoked by pack (src/packer.ts line 165):
selectItems(availableItems, packageLimit, 0, 0, [], resultObj) on the initial
resultObj. -/
def select (items : List Item) (packageLimit : ℚ) : ResultObj :=
  selectItems items packageLimit 0 0 [] initResult

/-- The order in which the loop of selectItems reaches the nonempty
extensions of the current selection. -/
def dfsLoop : List Item → List (List Item)
  | [] => []
  | x :: rest =>
      ((([] : List Item) :: dfsLoop rest).map (fun s => x :: s)) ++ dfsLoop rest

/-- The order in which selectItems evaluates the extensions of the current
selection: the current selection itself first, then the loop.  dfsList items
enumerates exactly the subsequences of items, in depth-first order. -/
def dfsList (items : List Item) : List (List Item) := [] :: dfsLoop items

/-- The effect on the resultObj of reaching extension s of the selection
accumulated as (totalWeight, totalCost, selectedItems): skipped if the
extended weight exceeds the limit, otherwise evaluated by update. -/
def visitAt (cap tw tc : ℚ) (sel : List Item) (r : ResultObj)
    (s : List Item) : ResultObj :=
  if tw + weightSum s > cap then r
  else update (tc + costSum s) (tw + weightSum s) (sel ++ s) r

/-- The effect of one candidate subset s on the resultObj during a top-level
search (accumulators started at 0, 0, []). -/
def visit (cap : ℚ) (r : ResultObj) (s : List Item) : ResultObj :=
  if weightSum s > cap then r
  else update (costSum s) (weightSum s) s r

/-- Consistency of a resultObj during a top-level search with capacity cap
over items: the record describes an actually selected feasible subsequence. -/
def Good (cap : ℚ) (items : List Item) (r : ResultObj) : Prop :=
  r.maxWeight = (weightSum r.maxSelectedItems : WithTop ℚ) ∧
  r.maxCost = costSum r.maxSelectedItems ∧
  weightSum r.maxSelectedItems ≤ cap ∧
  r.maxSelectedItems.Sublist items

/-- The best-result record only ever improves: the cost never decreases, and
at unchanged cost the weight never increases. -/
def Improves (r r' : ResultObj) : Prop :=
  r.maxCost ≤ r'.maxCost ∧ (r'.maxCost = r.maxCost → r'.maxWeight ≤ r.maxWeight)

/-- The successive values taken by the resultObj during a top-level search:
the initial record followed by the state after each candidate evaluation, in
depth-first order (justified against selectItems by select_eq_foldl and
searchTrace_getLast). -/
def searchTrace (items : List Item) (cap : ℚ) : List ResultObj :=
  List.scanl (visit cap) initResult (dfsList items)

/-- The best-so-far record of the binary include/exclude pack variant (the
second pack implementation in packer.ts, its let maxCost / maxSelectedItems
closure): this variant tracks no maxWeight. -/
structure BResult where
  maxCost : ℚ
  maxSelectedItems : List Item
deriving DecidableEq

/-- The inline selectItems of the binary include/exclude pack variant: on
the empty suffix the accumulated selection is evaluated (by cost alone);
otherwise the head item is included when it still fits and then excluded,
recursing on the tail in both branches.  The mutated closure variables are
threaded as a BResult, include branch first as in the source. -/
def bSelectItems (packageLimit : ℚ) :
    List Item → ℚ → ℚ → List Item → BResult → BResult
  | [], _, totalCost, selectedItems, r =>
      if totalCost > r.maxCost then
        { maxCost := totalCost, maxSelectedItems := selectedItems }
      else r
  | item :: remaining, totalWeight, totalCost, selectedItems, r =>
      bSelectItems packageLimit remaining totalWeight totalCost selectedItems
        (if totalWeight + item.weight ≤ packageLimit then
          bSelectItems packageLimit remaining (totalWeight + item.weight)
            (totalCost + item.cost) (selectedItems ++ [item]) r
         else r)

/-- The initial best-so-far record of the binary variant:
let maxCost = 0, let maxSelectedItems = []. -/
def bInit : BResult := { maxCost := 0, maxSelectedItems := [] }

/-- One full run of the binary variant selector:
selectItems(parsedItems, 0, 0, []). -/
def bSelect (items : List Item) (packageLimit : ℚ) : BResult :=
  bSelectItems packageLimit items 0 0 [] bInit

/-- The order in which the binary include/exclude recursion reaches its
leaves: include-first, so all subsets containing the head precede those
without it. -/
def bdfs : List Item → List (List Item)
  | [] => [[]]
  | x :: rest => ((bdfs rest).map (fun s => x :: s)) ++ bdfs rest

/-- The effect of leaf s on the best-so-far record of the binary variant
during a search from accumulators (tw, tc, sel): a nonempty extension whose
weight overflows is never reached (its include branch was pruned); a reached
leaf updates the record when its cost is strictly greater. -/
def bvisitAt (cap tw tc : ℚ) (sel : List Item) (r : BResult)
    (s : List Item) : BResult :=
  if s ≠ [] ∧ tw + weightSum s > cap then r
  else if tc + costSum s > r.maxCost then
    { maxCost := tc + costSum s, maxSelectedItems := sel ++ s }
  else r

/-- The effect of candidate subset s on the best-so-far record during a
top-level run of the binary variant. -/
def bvisit (cap : ℚ) (r : BResult) (s : List Item) : BResult :=
  if s ≠ [] ∧ weightSum s > cap then r
  else if costSum s > r.maxCost then
    { maxCost := costSum s, maxSelectedItems := s }
  else r

/-- Consistency of a best-so-far record of the binary variant: the cost
matches the stored selection, which is a subsequence of the input and is
feasible or still the initial empty selection. -/
def BGood (cap : ℚ) (items : List Item) (r : BResult) : Prop :=
  r.maxCost = costSum r.maxSelectedItems ∧
  r.maxSelectedItems.Sublist items ∧
  (weightSum r.maxSelectedItems ≤ cap ∨ r.maxSelectedItems = [])

mutual
/-- Fuel-indexed transcription of the original mutually recursive
selectItems: one unit of fuel is consumed at each nested selectItems entry
(one call-stack frame per nesting level), and none is returned when it runs
out.  Every recursive call receives the strictly shorter suffix
items.slice(i + 1), so fuel exceeding the item count always suffices
(c9_termination). -/
def selectItemsF (fuel : ℕ) (items : List Item) (cap tw tc : ℚ)
    (sel : List Item) (r : ResultObj) : Option ResultObj :=
  match fuel with
  | 0 => none
  | fuel + 1 =>
      if tw > cap then some r
      else selectLoopF fuel items cap tw tc sel (update tc tw sel r)
termination_by (fuel, items.length)

/-- Fuel-indexed transcription of the loop of selectItems. -/
def selectLoopF (fuel : ℕ) (items : List Item) (cap tw tc : ℚ)
    (sel : List Item) (r : ResultObj) : Option ResultObj :=
  match items with
  | [] => some r
  | item :: remaining =>
      match selectItemsF fuel remaining cap (tw + item.weight)
          (tc + item.cost) (sel ++ [item]) r with
      | none => none
      | some r1 => selectLoopF fuel remaining cap tw tc sel r1
termination_by (fuel, items.length + 1)
end

/-- Whitespace removed by String.prototype.trim (restricted to the common
ASCII whitespace characters). -/
def isSpaceChar (c : Char) : Bool :=
  c == ' ' || c == '\t' || c == '\n' || c == '\r' || c == '\x0B' || c == '\x0C'

/-- String.prototype.trim on a character list. -/
def trimChars (s : List Char) : List Char :=
  ((s.dropWhile isSpaceChar).reverse.dropWhile isSpaceChar).reverse

/-- Numeric value of a decimal digit string (most significant first). -/
def natOfDigits (ds : List Char) : ℕ :=
  ds.foldl (fun n c => 10 * n + (c.toNat - 48)) 0

/-- The longest decimal-digit prefix. -/
def leadDigits (s : List Char) : List Char := s.takeWhile Char.isDigit

/-- What remains after the longest decimal-digit prefix. -/
def afterDigits (s : List Char) : List Char := s.dropWhile Char.isDigit

/-- JavaScript parseInt(s, 10): skip leading whitespace, take an optional
sign and then the longest digit prefix, ignoring the rest; none models NaN
(no digit consumed). -/
def parseInt10 (s : List Char) : Option ℤ :=
  match s.dropWhile isSpaceChar with
  | '+' :: rest =>
      if leadDigits rest = [] then none
      else some ((natOfDigits (leadDigits rest) : ℤ))
  | '-' :: rest =>
      if leadDigits rest = [] then none
      else some (-(natOfDigits (leadDigits rest) : ℤ))
  | t => if leadDigits t = [] then none else some ((natOfDigits (leadDigits t) : ℤ))

/-- DefaultItemPacker.parsePackageLimit (packer.ts lines 180-188):
parseInt(packageLimitString.trim(), 10), rejecting NaN and values at most 0;
none models the thrown APIException('Invalid package limit'). -/
def parsePackageLimit (s : List Char) : Option ℤ :=
  match parseInt10 (trimChars s) with
  | none => none
  | some n => if n ≤ 0 then none else some n

/-- The line terminators that the regex dot does not match. -/
def isLineTerminator (c : Char) : Bool :=
  c == '\n' || c == '\r' || c.toNat == 0x2028 || c.toNat == 0x2029

/-- The lazy group body of the global regex for parenthesised tokens: scan
for the first closing parenthesis, failing on a line terminator (the dot
does not match those) or the end of input.  Returns the content before the
parenthesis and the remainder after it. -/
def findClose : List Char → Option (List Char × List Char)
  | [] => none
  | c :: rest =>
      if c = ')' then some ([], rest)
      else if isLineTerminator c then none
      else
        match findClose rest with
        | none => none
        | some (content, r) => some (c :: content, r)

/-- itemsString.match of the global parenthesised-token regex (fuel-indexed;
matchGroups supplies fuel covering the input): at an opening parenthesis a
lazy match runs to the next closing parenthesis and scanning resumes after
it; on failure, and at any other character, scanning advances by one. -/
def matchGroupsF : ℕ → List Char → List (List Char)
  | 0, _ => []
  | _ + 1, [] => []
  | fuel + 1, c :: rest =>
      if c = '(' then
        match findClose rest with
        | some (content, r) =>
            ('(' :: (content ++ [')'])) :: matchGroupsF fuel r
        | none => matchGroupsF fuel rest
      else matchGroupsF fuel rest

/-- All matches of the parenthesised-token regex in the input
(packer.ts line 45: itemsString.match of the global group pattern,
defaulting to no groups). -/
def matchGroups (s : List Char) : List (List Char) := matchGroupsF s.length s

/-- A digit or a dot, the character class of the weight group. -/
def dotDigit (c : Char) : Bool := c.isDigit || c == '.'

/-- The longest prefix of digits and dots. -/
def leadDotDigits (s : List Char) : List Char := s.takeWhile dotDigit

/-- What remains after the longest prefix of digits and dots. -/
def afterDotDigits (s : List Char) : List Char := s.dropWhile dotDigit

/-- Attempt to match the item pattern — open parenthesis, digits, comma,
digits-and-dots, comma, euro sign, digits, closing parenthesis — at the
start of the input, returning the three captured groups.  The greedy
one-or-more classes need no backtracking because each is followed by a
character outside its class. -/
def tryItemAt : List Char → Option (List Char × List Char × List Char)
  | '(' :: rest =>
      if leadDigits rest = [] then none
      else
        match afterDigits rest with
        | ',' :: r2 =>
            if leadDotDigits r2 = [] then none
            else
              match afterDotDigits r2 with
              | ',' :: '€' :: r4 =>
                  if leadDigits r4 = [] then none
                  else
                    match afterDigits r4 with
                    | ')' :: _ => some (leadDigits rest, leadDotDigits r2, leadDigits r4)
                    | _ => none
              | _ => none
        | _ => none
  | _ => none

/-- item.match of the item pattern (packer.ts line 49): the pattern is
unanchored, so the match is sought from each position in turn. -/
def findItemMatch : List Char → Option (List Char × List Char × List Char)
  | [] => none
  | c :: rest =>
      match tryItemAt (c :: rest) with
      | some m => some m
      | none => findItemMatch rest

/-- JavaScript parseFloat restricted to strings of digits and dots (the only
strings the weight group can capture): longest prefix of digits, optionally
a dot and more digits, the rest ignored; none models NaN (no digit
consumed).  The decimal value is represented exactly as a rational; the
source stores the nearest binary double. -/
def parseFloatQ (s : List Char) : Option ℚ :=
  match afterDigits s with
  | '.' :: r2 =>
      if leadDigits s = [] ∧ leadDigits r2 = [] then none
      else
        some (mkRat
          ((natOfDigits (leadDigits s)) * 10 ^ (leadDigits r2).length +
            natOfDigits (leadDigits r2))
          (10 ^ (leadDigits r2).length))
  | _ =>
      if leadDigits s = [] then none
      else some ((natOfDigits (leadDigits s) : ℚ))

/-- An item as produced by DefaultItemParser.parseItems: index and cost are
parseInt of digit groups; weight is parseFloat of the digits-and-dots group,
with none standing for the float NaN that parseFloat yields when the group
holds no digit before its second dot. -/
structure PItem where
  index : ℕ
  weight : Option ℚ
  cost : ℕ
deriving DecidableEq

/-- One parsed item from a matched group, if the group matches the item
pattern. -/
def parseOneItem (g : List Char) : Option PItem :=
  match findItemMatch g with
  | none => none
  | some (ds, ws, cs) =>
      some { index := natOfDigits ds, weight := parseFloatQ ws,
             cost := natOfDigits cs }

/-- The loop of DefaultItemParser.parseItems over the matched groups:
collect parsed items, throwing APIException('Invalid item format') at the
first group that does not match the item pattern. -/
def parseItemsGroups : List (List Char) → Except String (List PItem)
  | [] => Except.ok []
  | g :: gs =>
      match parseOneItem g with
      | some it => (parseItemsGroups gs).map (fun items => it :: items)
      | none => Except.error ("Invalid item format")

/-- DefaultItemParser.parseItems (packer.ts lines 43-66). -/
def parseItems (s : List Char) : Except String (List PItem) :=
  parseItemsGroups (matchGroups s)

/-- Insertion into an ascending list of indexes. -/
def insertAsc (n : ℕ) : List ℕ → List ℕ
  | [] => [n]
  | m :: rest => if n ≤ m then n :: m :: rest else m :: insertAsc n rest

/-- selectedIndexes.sort((a, b) => a - b): ascending numeric sort. -/
def sortAsc : List ℕ → List ℕ
  | [] => []
  | n :: rest => insertAsc n (sortAsc rest)

/-- selectedIndexes.join(','): decimal representations separated by
commas. -/
def joinIds (ids : List ℕ) : List Char :=
  List.intercalate [','] (ids.map (fun n => Nat.toDigits 10 n))

/-- One iteration of the line loop of DefaultItemPacker.pack (packer.ts
lines 131-175).  The line splits at ':'; an invalid package limit is caught
and yields '-' for this line; a missing items section (no ':') makes
parseItems throw on undefined, rethrown as APIException('Invalid item
format'); a parse failure propagates with the same message; otherwise the
selector runs and the chosen indexes are sorted and joined, an empty join
printing as '-'.  When a parsed weight is the float NaN (weight none) the
source carries NaN through the selection, which lies outside the rational
model: that branch returns the marker text NaN and no claim is made about
it. -/
def processLine (line : List Char) : Except String (List Char) :=
  let parts := line.splitOn ':'
  match parsePackageLimit (parts.headD []) with
  | none => Except.ok ['-']
  | some cap =>
      match parts.get? 1 with
      | none => Except.error ("Invalid item format")
      | some itemsStr =>
          match parseItems itemsStr with
          | Except.error e => Except.error e
          | Except.ok pitems =>
              if pitems.all (fun p => p.weight.isSome) then
                let items := pitems.map (fun p =>
                  Item.mk p.index (p.weight.getD 0) ((p.cost : ℚ)))
                let r := select items ((cap : ℚ))
                let out := joinIds (sortAsc (r.maxSelectedItems.map Item.index))
                Except.ok (if out = [] then ['-'] else out)
              else Except.ok ['N', 'a', 'N']

/-- The per-line results of DefaultItemPacker.pack over the lines of the
input: the first thrown APIException aborts the whole run, an invalid
capacity only skips its line. -/
def packLines : List (List Char) → Except String (List (List Char))
  | [] => Except.ok []
  | l :: rest =>
      match processLine l with
      | Except.error e => Except.error e
      | Except.ok out => (packLines rest).map (fun outs => out :: outs)

/-- DefaultItemPacker.pack (packer.ts lines 120-178): the per-line results
joined by newlines.  Reading the file into lines (readLinesFromFile) is
abstracted: pack takes the list of lines. -/
def pack (lines : List (List Char)) : Except String (List Char) :=
  (packLines lines).map (fun outs => List.intercalate ['\n'] outs)

/-! ## Theorems -/

-- Batteries marks Rat.add irreducible; witnesses evaluate concrete runs of
-- the embedded functions, so rational addition must reduce.
attribute [local semireducible] Rat.add

@[simp] theorem weightSum_nil : weightSum [] = 0 := rfl

@[simp] theorem weightSum_cons (x : Item) (l : List Item) :
    weightSum (x :: l) = x.weight + weightSum l := by
  simp [weightSum]

@[simp] theorem weightSum_append (l₁ l₂ : List Item) :
    weightSum (l₁ ++ l₂) = weightSum l₁ + weightSum l₂ := by
  simp [weightSum]

@[simp] theorem costSum_nil : costSum [] = 0 := rfl

@[simp] theorem costSum_cons (x : Item) (l : List Item) :
    costSum (x :: l) = x.cost + costSum l := by
  simp [costSum]

@[simp] theorem costSum_append (l₁ l₂ : List Item) :
    costSum (l₁ ++ l₂) = costSum l₁ + costSum l₂ := by
  simp [costSum]

@[simp] theorem selectLoop_nil (cap tw tc : ℚ) (sel : List Item)
    (r : ResultObj) : selectLoop cap [] tw tc sel r = r := rfl

theorem selectItems_nil (cap tw tc : ℚ) (sel : List Item) (r : ResultObj) :
    selectItems [] cap tw tc sel r =
      if tw > cap then r else update tc tw sel r := by
  simp [selectItems]

/-- The loop of selectItems processes the items in order: the iteration at
position 0 recurses into the suffix after it, then the rest of the loop
continues on that suffix. -/
theorem selectLoop_cons (cap tw tc : ℚ) (x : Item) (rest sel : List Item)
    (r : ResultObj) :
    selectLoop cap (x :: rest) tw tc sel r =
      selectLoop cap rest tw tc sel
        (selectItems rest cap (tw + x.weight) (tc + x.cost) (sel ++ [x]) r) :=
  rfl

/-- The original recursive equation of selectItems. -/
theorem selectItems_cons (cap tw tc : ℚ) (items sel : List Item)
    (r : ResultObj) :
    selectItems items cap tw tc sel r =
      if tw > cap then r
      else selectLoop cap items tw tc sel (update tc tw sel r) := rfl

@[simp] theorem dfsLoop_nil : dfsLoop [] = [] := rfl

theorem dfsLoop_cons (x : Item) (rest : List Item) :
    dfsLoop (x :: rest) =
      ((dfsList rest).map (fun s => x :: s)) ++ dfsLoop rest := rfl

theorem mem_dfsLoop {s items : List Item} :
    s ∈ dfsLoop items ↔ s ≠ [] ∧ s.Sublist items := by
  induction items generalizing s with
  | nil => simp [dfsLoop]
  | cons x rest ih =>
      rw [dfsLoop_cons]
      constructor
      · intro h
        rcases List.mem_append.1 h with h | h
        · rcases List.mem_map.1 h with ⟨t, ht, rfl⟩
          refine ⟨by simp, ?_⟩
          rcases List.mem_cons.1 ht with rfl | ht
          · exact (List.nil_sublist rest).cons₂ x
          · exact ((ih.1 ht).2).cons₂ x
        · rcases ih.1 h with ⟨hne, hsub⟩
          exact ⟨hne, hsub.cons x⟩
      · rintro ⟨hne, hsub⟩
        rcases List.sublist_cons_iff.1 hsub with h | ⟨t, rfl, ht⟩
        · exact List.mem_append.2 (Or.inr (ih.2 ⟨hne, h⟩))
        · refine List.mem_append.2 (Or.inl (List.mem_map.2 ⟨t, ?_, rfl⟩))
          rcases t with _ | ⟨y, t⟩
          · exact List.mem_cons_self _ _
          · exact List.mem_cons_of_mem _ (ih.2 ⟨by simp, ht⟩)

theorem mem_dfsList {s items : List Item} :
    s ∈ dfsList items ↔ s.Sublist items := by
  constructor
  · intro h
    rcases List.mem_cons.1 h with rfl | h
    · exact List.nil_sublist items
    · exact (mem_dfsLoop.1 h).2
  · intro h
    rcases s with _ | ⟨x, s⟩
    · exact List.mem_cons_self _ _
    · exact List.mem_cons_of_mem _ (mem_dfsLoop.2 ⟨by simp, h⟩)

theorem weightSum_nonneg_of_sublist {s items : List Item}
    (hw : ∀ x ∈ items, 0 ≤ x.weight) (hs : s.Sublist items) :
    0 ≤ weightSum s := by
  refine List.sum_nonneg ?_
  intro a ha
  rcases List.mem_map.1 ha with ⟨x, hx, rfl⟩
  exact hw x (hs.subset hx)

theorem foldl_fixed_of_mem {α β : Type} {f : α → β → α} :
    ∀ {l : List β}, (∀ a, ∀ b ∈ l, f a b = a) → ∀ a, l.foldl f a = a := by
  intro l
  induction l with
  | nil => intro _ a; rfl
  | cons b l ih =>
      intro h a
      rw [List.foldl_cons, h a b (List.mem_cons_self _ _)]
      exact ih (fun a c hc => h a c (List.mem_cons_of_mem _ hc)) a

theorem visitAt_cons (cap tw tc : ℚ) (sel : List Item) (x : Item)
    (a : ResultObj) (b : List Item) :
    visitAt cap tw tc sel a (x :: b) =
      visitAt cap (tw + x.weight) (tc + x.cost) (sel ++ [x]) a b := by
  simp [visitAt, add_assoc]

/-- The loop of selectItems is the fold of the candidate evaluation over the
depth-first enumeration of the nonempty extensions, provided no weight is
negative (so that pruned branches contain no feasible extension). -/
theorem selectLoop_eq_foldl (cap : ℚ) :
    ∀ items : List Item, (∀ x ∈ items, 0 ≤ x.weight) →
      ∀ (tw tc : ℚ) (sel : List Item) (r : ResultObj),
        selectLoop cap items tw tc sel r =
          (dfsLoop items).foldl (visitAt cap tw tc sel) r := by
  intro items
  induction items with
  | nil => intro _ tw tc sel r; rfl
  | cons x rest ih =>
      intro hw tw tc sel r
      have hwrest : ∀ y ∈ rest, 0 ≤ y.weight := fun y hy =>
        hw y (List.mem_cons_of_mem _ hy)
      have hmap :
          ∀ (a : ResultObj),
            (dfsLoop rest).foldl (fun p s => visitAt cap tw tc sel p (x :: s)) a
              = (dfsLoop rest).foldl
                  (visitAt cap (tw + x.weight) (tc + x.cost) (sel ++ [x])) a := by
        intro a
        refine List.foldl_ext _ _ a ?_
        intro p b _
        exact visitAt_cons cap tw tc sel x p b
      rw [selectLoop_cons, dfsLoop_cons, List.foldl_append, List.foldl_map]
      rw [dfsList]
      rw [List.foldl_cons]
      have hhead : visitAt cap tw tc sel r ([x]) =
          if tw + x.weight > cap then r
          else update (tc + x.cost) (tw + x.weight) (sel ++ [x]) r := by
        simp [visitAt]
      by_cases hx : tw + x.weight > cap
      · have hskip :
            (dfsLoop rest).foldl
              (visitAt cap (tw + x.weight) (tc + x.cost) (sel ++ [x])) r = r := by
          refine foldl_fixed_of_mem ?_ r
          intro a b hb
          have hb' : (0 : ℚ) ≤ weightSum b :=
            weightSum_nonneg_of_sublist hwrest (mem_dfsLoop.1 hb).2
          have : tw + x.weight + weightSum b > cap := by linarith
          simp [visitAt, this]
        have hx' : visitAt cap tw tc sel r ([x]) = r := by rw [hhead, if_pos hx]
        rw [hx', hmap r, hskip]
        rw [ih hwrest tw tc sel _]
        congr 1
        rw [selectItems_cons, if_pos hx]
      · have hx' : visitAt cap tw tc sel r ([x]) =
            update (tc + x.cost) (tw + x.weight) (sel ++ [x]) r := by
          rw [hhead, if_neg hx]
        rw [hx', hmap]
        rw [ih hwrest tw tc sel _]
        congr 1
        rw [selectItems_cons, if_neg hx]
        exact ih hwrest (tw + x.weight) (tc + x.cost) (sel ++ [x]) _

/-- selectItems is the fold of the candidate evaluation over the depth-first
enumeration of all extensions of the current selection. -/
theorem selectItems_eq_foldl (cap : ℚ) (items : List Item)
    (hw : ∀ x ∈ items, 0 ≤ x.weight) (tw tc : ℚ) (sel : List Item)
    (r : ResultObj) :
    selectItems items cap tw tc sel r =
      (dfsList items).foldl (visitAt cap tw tc sel) r := by
  rw [dfsList, List.foldl_cons]
  have hhead : visitAt cap tw tc sel r [] =
      if tw > cap then r else update tc tw sel r := by
    simp [visitAt]
  by_cases h : tw > cap
  · rw [selectItems_cons, if_pos h, hhead, if_pos h]
    refine (foldl_fixed_of_mem ?_ r).symm
    intro a b hb
    have hb' : (0 : ℚ) ≤ weightSum b :=
      weightSum_nonneg_of_sublist hw (mem_dfsLoop.1 hb).2
    have : tw + weightSum b > cap := by linarith
    simp [visitAt, this]
  · rw [selectItems_cons, if_neg h, hhead, if_neg h]
    exact selectLoop_eq_foldl cap items hw tw tc sel _

theorem visitAt_zero (cap : ℚ) (r : ResultObj) (s : List Item) :
    visitAt cap 0 0 [] r s = visit cap r s := by
  simp [visitAt, visit]

/-- The top-level run of the selector is the fold of the candidate evaluation
over the depth-first enumeration of all subsequences of the input. -/
theorem select_eq_foldl (cap : ℚ) (items : List Item)
    (hw : ∀ x ∈ items, 0 ≤ x.weight) :
    select items cap = (dfsList items).foldl (visit cap) initResult := by
  rw [select, selectItems_eq_foldl cap items hw]
  refine List.foldl_ext _ _ _ ?_
  intro a b _
  exact visitAt_zero cap a b

theorem visit_good {cap : ℚ} {items : List Item} {r : ResultObj}
    {s : List Item} (hs : s.Sublist items) (hr : Good cap items r) :
    Good cap items (visit cap r s) := by
  unfold visit
  by_cases h : weightSum s > cap
  · rwa [if_pos h]
  · rw [if_neg h]
    unfold update
    by_cases h1 : costSum s > r.maxCost
    · rw [if_pos h1]
      exact ⟨rfl, rfl, le_of_not_lt h, hs⟩
    · rw [if_neg h1]
      by_cases h2 : costSum s = r.maxCost ∧
          (weightSum s : WithTop ℚ) < r.maxWeight
      · rw [if_pos h2]
        exact ⟨rfl, by simpa using h2.1.symm, le_of_not_lt h, hs⟩
      · rw [if_neg h2]
        exact hr

theorem visit_improves (cap : ℚ) (r : ResultObj) (s : List Item) :
    Improves r (visit cap r s) := by
  unfold visit update Improves
  by_cases h : weightSum s > cap
  · simp [if_pos h]
  · rw [if_neg h]
    by_cases h1 : costSum s > r.maxCost
    · rw [if_pos h1]
      refine ⟨le_of_lt h1, ?_⟩
      intro heq
      exact absurd heq (ne_of_gt h1)
    · rw [if_neg h1]
      by_cases h2 : costSum s = r.maxCost ∧
          (weightSum s : WithTop ℚ) < r.maxWeight
      · rw [if_pos h2]
        exact ⟨le_refl _, fun _ => le_of_lt h2.2⟩
      · rw [if_neg h2]
        exact ⟨le_refl _, fun _ => le_refl _⟩

theorem improves_trans {r₁ r₂ r₃ : ResultObj} (h₁ : Improves r₁ r₂)
    (h₂ : Improves r₂ r₃) : Improves r₁ r₃ := by
  refine ⟨le_trans h₁.1 h₂.1, ?_⟩
  intro heq
  have h21 : r₂.maxCost = r₁.maxCost :=
    le_antisymm (heq ▸ h₂.1) h₁.1
  have h32 : r₃.maxCost = r₂.maxCost := by rw [heq, h21]
  exact le_trans (h₂.2 h32) (h₁.2 h21)

theorem foldl_visit_improves (cap : ℚ) :
    ∀ (V : List (List Item)) (r : ResultObj),
      Improves r (V.foldl (visit cap) r) := by
  intro V
  induction V with
  | nil => intro r; exact ⟨le_refl _, fun _ => le_refl _⟩
  | cons v V ih =>
      intro r
      rw [List.foldl_cons]
      exact improves_trans (visit_improves cap r v) (ih (visit cap r v))

theorem visit_self {cap : ℚ} {s : List Item} (h : weightSum s ≤ cap)
    (r : ResultObj) :
    costSum s ≤ (visit cap r s).maxCost ∧
      ((visit cap r s).maxCost = costSum s →
        (visit cap r s).maxWeight ≤ (weightSum s : WithTop ℚ)) := by
  unfold visit update
  rw [if_neg (not_lt.2 h)]
  by_cases h1 : costSum s > r.maxCost
  · rw [if_pos h1]
    exact ⟨le_refl _, fun _ => le_refl _⟩
  · rw [if_neg h1]
    by_cases h2 : costSum s = r.maxCost ∧
        (weightSum s : WithTop ℚ) < r.maxWeight
    · rw [if_pos h2]
      exact ⟨le_of_eq h2.1, fun _ => le_refl _⟩
    · rw [if_neg h2]
      refine ⟨le_of_not_lt h1, ?_⟩
      intro heq
      rcases not_and_or.1 h2 with h3 | h3
      · exact absurd heq.symm h3
      · exact le_of_not_lt h3

theorem foldl_visit_guarantee (cap : ℚ) :
    ∀ (V : List (List Item)) (r : ResultObj) (s : List Item), s ∈ V →
      weightSum s ≤ cap →
      costSum s ≤ (V.foldl (visit cap) r).maxCost ∧
        ((V.foldl (visit cap) r).maxCost = costSum s →
          (V.foldl (visit cap) r).maxWeight ≤ (weightSum s : WithTop ℚ)) := by
  intro V
  induction V with
  | nil => intro r s hs; exact absurd hs (List.not_mem_nil s)
  | cons v V ih =>
      intro r s hs hfeas
      rw [List.foldl_cons]
      rcases List.mem_cons.1 hs with rfl | hs
      · have hself := visit_self hfeas r
        have himp := foldl_visit_improves cap V (visit cap r s)
        refine ⟨le_trans hself.1 himp.1, ?_⟩
        intro heq
        have h2 : (visit cap r s).maxCost = costSum s :=
          le_antisymm (heq ▸ himp.1) hself.1
        have h3 : (V.foldl (visit cap) (visit cap r s)).maxCost =
            (visit cap r s).maxCost := by rw [heq, h2]
        exact le_trans (himp.2 h3) (hself.2 h2)
      · exact ih (visit cap r v) s hs hfeas

theorem foldl_visit_good {cap : ℚ} {items : List Item} :
    ∀ (V : List (List Item)) (r : ResultObj), (∀ s ∈ V, s.Sublist items) →
      Good cap items r → Good cap items (V.foldl (visit cap) r) := by
  intro V
  induction V with
  | nil => intro r _ hr; exact hr
  | cons v V ih =>
      intro r hV hr
      rw [List.foldl_cons]
      exact ih (visit cap r v)
        (fun s hs => hV s (List.mem_cons_of_mem _ hs))
        (visit_good (hV v (List.mem_cons_self _ _)) hr)

theorem visit_init_nil {cap : ℚ} (hc : 0 ≤ cap) :
    visit cap initResult [] =
      { maxCost := 0, maxWeight := ((0 : ℚ) : WithTop ℚ),
        maxSelectedItems := [] } := by
  unfold visit update initResult
  rw [if_neg (by simpa using not_lt.2 hc)]
  norm_num

/-- After a top-level run with nonnegative capacity and weights, the
resultObj is consistent: its fields describe a feasible subsequence of the
input. -/
theorem select_good {items : List Item} {cap : ℚ} (hc : 0 ≤ cap)
    (hw : ∀ x ∈ items, 0 ≤ x.weight) : Good cap items (select items cap) := by
  rw [select_eq_foldl cap items hw, dfsList, List.foldl_cons, visit_init_nil hc]
  refine foldl_visit_good (dfsLoop items) _ (fun s hs => (mem_dfsLoop.1 hs).2) ?_
  unfold Good
  refine ⟨by simp, by simp, by simpa using hc, List.nil_sublist _⟩

/-- Every feasible subsequence of the input was evaluated as a candidate
during a top-level run: the final cost is at least its cost, and on equal
cost the final weight is at most its weight. -/
theorem select_guarantee {items : List Item} {cap : ℚ}
    (hw : ∀ x ∈ items, 0 ≤ x.weight) (S : List Item) (hS : S.Sublist items)
    (hfeas : weightSum S ≤ cap) :
    costSum S ≤ (select items cap).maxCost ∧
      ((select items cap).maxCost = costSum S →
        (select items cap).maxWeight ≤ (weightSum S : WithTop ℚ)) := by
  rw [select_eq_foldl cap items hw]
  exact foldl_visit_guarantee cap (dfsList items) initResult S
    (mem_dfsList.2 hS) hfeas

/-- With a negative capacity the selector returns at once: the guard
totalWeight > packageLimit fires on the initial call. -/
theorem select_of_neg {items : List Item} {cap : ℚ} (hc : cap < 0) :
    select items cap = initResult := by
  rw [select, selectItems_cons, if_pos hc]

/-- C1 Optimality: for every capacity and every item sequence with
non-negative weights, and for every subsequence S of the input items whose
total weight is at most the capacity, the total cost of the subset returned
by the selector (resultObj.maxSelectedItems after
selectItems(items, capacity, 0, 0, [], resultObj) from the initial
resultObj) is at least the total cost of S. -/
theorem c1_optimality (items : List Item) (cap : ℚ)
    (hw : ∀ x ∈ items, 0 ≤ x.weight) (S : List Item) (hS : S.Sublist items)
    (hfeas : weightSum S ≤ cap) :
    costSum S ≤ costSum (select items cap).maxSelectedItems := by
  rcases le_or_lt 0 cap with hc | hc
  · have hgood := select_good hc hw
    have hguar := (select_guarantee hw S hS hfeas).1
    rw [hgood.2.1] at hguar
    exact hguar
  · have h0 : 0 ≤ weightSum S := weightSum_nonneg_of_sublist hw hS
    linarith

theorem c1_optimality_witness :
    costSum [Item.mk 1 2 3] ≤
      costSum (select [Item.mk 1 2 3] 2).maxSelectedItems :=
  c1_optimality [Item.mk 1 2 3] 2 (by decide) [Item.mk 1 2 3]
    (List.Sublist.refl _) (by decide)

/-- C2 Feasibility: for every capacity at least 0 and every item sequence
with non-negative weights, the subset returned by the selector has total
weight at most the capacity. -/
theorem c2_feasibility (items : List Item) (cap : ℚ) (hc : 0 ≤ cap)
    (hw : ∀ x ∈ items, 0 ≤ x.weight) :
    weightSum (select items cap).maxSelectedItems ≤ cap :=
  (select_good hc hw).2.2.1

theorem c2_feasibility_witness :
    weightSum (select [Item.mk 1 3 4] 2).maxSelectedItems ≤ 2 :=
  c2_feasibility [Item.mk 1 3 4] 2 (by decide) (by decide)

/-- C3 Tie-break on weight: for every capacity and item sequence with
non-negative weights, if a feasible subsequence T achieves the maximal
feasible total cost, then the subset returned by the selector has total
weight at most the total weight of T. -/
theorem c3_tiebreak (items : List Item) (cap : ℚ)
    (hw : ∀ x ∈ items, 0 ≤ x.weight) (T : List Item) (hT : T.Sublist items)
    (hTfeas : weightSum T ≤ cap)
    (hTmax : ∀ S : List Item, S.Sublist items → weightSum S ≤ cap →
      costSum S ≤ costSum T) :
    weightSum (select items cap).maxSelectedItems ≤ weightSum T := by
  rcases le_or_lt 0 cap with hc | hc
  · have hgood := select_good hc hw
    have hselmax : costSum (select items cap).maxSelectedItems ≤ costSum T :=
      hTmax _ hgood.2.2.2 hgood.2.2.1
    have hguarT := select_guarantee hw T hT hTfeas
    have heq : (select items cap).maxCost = costSum T :=
      le_antisymm (by rw [hgood.2.1]; exact hselmax) hguarT.1
    have hW := hguarT.2 heq
    rw [hgood.1] at hW
    exact_mod_cast hW
  · have h0 : 0 ≤ weightSum T := weightSum_nonneg_of_sublist hw hT
    linarith

theorem c3_tiebreak_witness :
    weightSum (select [Item.mk 1 1 1] 1).maxSelectedItems ≤
      weightSum [Item.mk 1 1 1] := by
  refine c3_tiebreak [Item.mk 1 1 1] 1 (by decide) [Item.mk 1 1 1]
    (List.Sublist.refl _) (by decide) ?_
  intro S hS hfeas
  have hmem : S ∈ ([Item.mk 1 1 1] : List Item).sublists :=
    List.mem_sublists.2 hS
  fin_cases hmem <;> decide

theorem getLast?_cons_of_getLast? {α : Type} {xs : List α} {a y : α}
    (h : xs.getLast? = some y) : (a :: xs).getLast? = some y := by
  cases xs with
  | nil => simp at h
  | cons b l => rwa [List.getLast?_cons_cons]

theorem scanl_getLast? {α β : Type} (f : α → β → α) :
    ∀ (l : List β) (a : α), (List.scanl f a l).getLast? = some (l.foldl f a) := by
  intro l
  induction l with
  | nil => intro a; rfl
  | cons b l ih =>
      intro a
      rw [List.scanl_cons, List.singleton_append, List.foldl_cons]
      exact getLast?_cons_of_getLast? (ih (f a b))

/-- The last state of the search trace is the result of the top-level run of
selectItems, tying searchTrace to the selector. -/
theorem searchTrace_getLast? {items : List Item} {cap : ℚ}
    (hw : ∀ x ∈ items, 0 ≤ x.weight) :
    (searchTrace items cap).getLast? = some (select items cap) := by
  rw [searchTrace, scanl_getLast?, select_eq_foldl cap items hw]

theorem scanl_invariant {α β : Type} {P : α → Prop} {f : α → β → α}
    (hf : ∀ a b, P a → P (f a b)) :
    ∀ (l : List β) (a : α), P a → ∀ x ∈ List.scanl f a l, P x := by
  intro l
  induction l with
  | nil =>
      intro a ha x hx
      rw [List.scanl_nil, List.mem_singleton] at hx
      rwa [hx]
  | cons b l ih =>
      intro a ha x hx
      rw [List.scanl_cons, List.singleton_append, List.mem_cons] at hx
      rcases hx with rfl | hx
      · exact ha
      · exact ih (f a b) (hf a b ha) x hx

theorem visit_weight_inv {cap : ℚ} {a : ResultObj} (s : List Item)
    (ha : weightSum a.maxSelectedItems ≤ cap) :
    weightSum (visit cap a s).maxSelectedItems ≤ cap := by
  unfold visit update
  by_cases h : weightSum s > cap
  · rwa [if_pos h]
  · rw [if_neg h]
    by_cases h1 : costSum s > a.maxCost
    · rw [if_pos h1]
      exact le_of_not_lt h
    · rw [if_neg h1]
      by_cases h2 : costSum s = a.maxCost ∧
          (weightSum s : WithTop ℚ) < a.maxWeight
      · rw [if_pos h2]
        exact le_of_not_lt h
      · rwa [if_neg h2]

theorem visit_maxWeight_inv {cap : ℚ} {a : ResultObj} (s : List Item)
    (ha : a.maxWeight ≤ (cap : WithTop ℚ)) :
    (visit cap a s).maxWeight ≤ (cap : WithTop ℚ) := by
  unfold visit update
  by_cases h : weightSum s > cap
  · rwa [if_pos h]
  · rw [if_neg h]
    by_cases h1 : costSum s > a.maxCost
    · rw [if_pos h1]
      exact WithTop.coe_le_coe.2 (le_of_not_lt h)
    · rw [if_neg h1]
      by_cases h2 : costSum s = a.maxCost ∧
          (weightSum s : WithTop ℚ) < a.maxWeight
      · rw [if_pos h2]
        exact WithTop.coe_le_coe.2 (le_of_not_lt h)
      · rwa [if_neg h2]

/-- C5 counterexample: the claim asserts that at every point during the
search the resultObj satisfies maxWeight at most the capacity; but the
initial resultObj, which is part of the search state when selectItems is
entered, has maxWeight Infinity, exceeding the capacity 1. -/
theorem c5_counterexample :
    initResult ∈ searchTrace [Item.mk 1 2 3] 1 ∧
      ¬ initResult.maxWeight ≤ ((1 : ℚ) : WithTop ℚ) := by
  constructor
  · show initResult ∈ List.scanl (visit 1) initResult (dfsList [Item.mk 1 2 3])
    rw [dfsList, List.scanl_cons, List.singleton_append]
    exact List.mem_cons_self _ _
  · exact not_le.2 (WithTop.coe_lt_top 1)

/-- C5 amended: a candidate may change the resultObj only when its
accumulated weight is at most the capacity; at every point of the search the
weight of maxSelectedItems is at most the capacity; and from the first
candidate evaluation onward (every state after the initial one) the maxWeight
field itself is at most the capacity — only the initial record carries
maxWeight Infinity. -/
theorem c5_invariant (items : List Item) (cap : ℚ) (hc : 0 ≤ cap) :
    (∀ (r : ResultObj) (s : List Item), cap < weightSum s →
        visit cap r s = r) ∧
      (∀ r ∈ searchTrace items cap, weightSum r.maxSelectedItems ≤ cap) ∧
      (∀ r ∈ (searchTrace items cap).tail, r.maxWeight ≤ (cap : WithTop ℚ)) := by
  have hstart : weightSum initResult.maxSelectedItems ≤ cap := by
    simpa [initResult] using hc
  have hstart2 : (visit cap initResult []).maxWeight ≤ (cap : WithTop ℚ) := by
    rw [visit_init_nil hc]
    exact WithTop.coe_le_coe.2 hc
  refine ⟨?_, ?_, ?_⟩
  · intro r s hs
    unfold visit
    rw [if_pos hs]
  · intro r hr
    rw [searchTrace] at hr
    exact scanl_invariant (P := fun a => weightSum a.maxSelectedItems ≤ cap)
      (fun a b ha => visit_weight_inv b ha) (dfsList items) initResult hstart r hr
  · intro r hr
    rw [searchTrace, dfsList, List.scanl_cons, List.singleton_append] at hr
    exact scanl_invariant (P := fun a => a.maxWeight ≤ (cap : WithTop ℚ))
      (fun a b ha => visit_maxWeight_inv b ha) (dfsLoop items)
      (visit cap initResult []) hstart2 r hr

theorem c5_invariant_witness :
    weightSum initResult.maxSelectedItems ≤ 1 :=
  (c5_invariant [Item.mk 1 1 1] 1 (by norm_num)).2.1 initResult (by decide)

/-- C8 Negative capacity is not an error: with a negative capacity the
selector returns immediately and the selected set stays empty; with an empty
item sequence and any nonnegative capacity the selected set is also empty.
The embedded selector is a total function, so no error is possible. -/
theorem c8_selector_edge_cases :
    (∀ (items : List Item) (cap : ℚ), cap < 0 →
        (select items cap).maxSelectedItems = []) ∧
      (∀ cap : ℚ, 0 ≤ cap →
        (select ([] : List Item) cap).maxSelectedItems = []) := by
  constructor
  · intro items cap hc
    rw [select_of_neg hc]
    rfl
  · intro cap hc
    rw [select, selectItems_nil, if_neg (not_lt.2 hc)]
    unfold update initResult
    norm_num

theorem c8_selector_edge_cases_witness :
    (select [Item.mk 1 1 1] (-1)).maxSelectedItems = [] ∧
      (select ([] : List Item) 5).maxSelectedItems = [] :=
  ⟨c8_selector_edge_cases.1 [Item.mk 1 1 1] (-1) (by norm_num),
   c8_selector_edge_cases.2 5 (by norm_num)⟩

theorem mem_bdfs {s items : List Item} : s ∈ bdfs items ↔ s.Sublist items := by
  induction items generalizing s with
  | nil => simp [bdfs]
  | cons x rest ih =>
      rw [show bdfs (x :: rest) =
        ((bdfs rest).map (fun s => x :: s)) ++ bdfs rest from rfl]
      constructor
      · intro h
        rcases List.mem_append.1 h with h | h
        · rcases List.mem_map.1 h with ⟨t, ht, rfl⟩
          exact (ih.1 ht).cons₂ x
        · exact (ih.1 h).cons x
      · intro h
        rcases List.sublist_cons_iff.1 h with h | ⟨t, rfl, ht⟩
        · exact List.mem_append.2 (Or.inr (ih.2 h))
        · exact List.mem_append.2 (Or.inl (List.mem_map.2 ⟨t, ih.2 ht, rfl⟩))

theorem bvisitAt_cons_of_ne (cap tw tc : ℚ) (sel : List Item) (x : Item)
    {b : List Item} (hb : b ≠ []) (p : BResult) :
    bvisitAt cap tw tc sel p (x :: b) =
      bvisitAt cap (tw + x.weight) (tc + x.cost) (sel ++ [x]) p b := by
  simp [bvisitAt, hb, add_assoc]

theorem bvisitAt_cons_nil {cap tw : ℚ} (tc : ℚ) (sel : List Item) {x : Item}
    (hx : tw + x.weight ≤ cap) (p : BResult) :
    bvisitAt cap tw tc sel p [x] =
      bvisitAt cap (tw + x.weight) (tc + x.cost) (sel ++ [x]) p [] := by
  simp [bvisitAt, not_lt.2 hx]

/-- The binary include/exclude recursion is the fold of its leaf evaluation
over the include-first enumeration of subsets, provided no weight is
negative (so that a pruned include branch contains no feasible leaf). -/
theorem bSelectItems_eq_foldl (cap : ℚ) :
    ∀ items : List Item, (∀ x ∈ items, 0 ≤ x.weight) →
      ∀ (tw tc : ℚ) (sel : List Item) (r : BResult),
        bSelectItems cap items tw tc sel r =
          (bdfs items).foldl (bvisitAt cap tw tc sel) r := by
  intro items
  induction items with
  | nil =>
      intro _ tw tc sel r
      show (if tc > r.maxCost then
          { maxCost := tc, maxSelectedItems := sel } else r) =
        bvisitAt cap tw tc sel r []
      simp [bvisitAt]
  | cons x rest ih =>
      intro hw tw tc sel r
      have hwrest : ∀ y ∈ rest, 0 ≤ y.weight := fun y hy =>
        hw y (List.mem_cons_of_mem _ hy)
      show bSelectItems cap rest tw tc sel
            (if tw + x.weight ≤ cap then
              bSelectItems cap rest (tw + x.weight) (tc + x.cost)
                (sel ++ [x]) r
             else r) = _
      rw [show bdfs (x :: rest) =
            ((bdfs rest).map (fun s => x :: s)) ++ bdfs rest from rfl,
        List.foldl_append, List.foldl_map]
      rw [ih hwrest tw tc sel]
      congr 1
      by_cases hx : tw + x.weight ≤ cap
      · rw [if_pos hx, ih hwrest (tw + x.weight) (tc + x.cost) (sel ++ [x])]
        refine (List.foldl_ext _ _ r ?_).symm
        intro p b _
        rcases b with _ | ⟨y, b⟩
        · exact bvisitAt_cons_nil tc sel hx p
        · exact bvisitAt_cons_of_ne cap tw tc sel x (b := y :: b) (by simp) p
      · rw [if_neg hx]
        refine (foldl_fixed_of_mem ?_ r).symm
        intro p b hb
        have hb0 : (0 : ℚ) ≤ weightSum b :=
          weightSum_nonneg_of_sublist hwrest (mem_bdfs.1 hb)
        have hcond : tw + weightSum (x :: b) > cap := by
          rw [weightSum_cons]
          rw [not_le] at hx
          linarith
        show bvisitAt cap tw tc sel p (x :: b) = p
        unfold bvisitAt
        rw [if_pos ⟨by simp, hcond⟩]

theorem bvisitAt_zero (cap : ℚ) (r : BResult) (s : List Item) :
    bvisitAt cap 0 0 [] r s = bvisit cap r s := by
  simp [bvisitAt, bvisit]

/-- The top-level run of the binary variant is the fold of the leaf
evaluation over the include-first enumeration of all subsequences. -/
theorem bSelect_eq_foldl {items : List Item} {cap : ℚ}
    (hw : ∀ x ∈ items, 0 ≤ x.weight) :
    bSelect items cap = (bdfs items).foldl (bvisit cap) bInit := by
  rw [bSelect, bSelectItems_eq_foldl cap items hw]
  refine List.foldl_ext _ _ _ ?_
  intro a b _
  exact bvisitAt_zero cap a b

theorem bvisit_good {cap : ℚ} {items : List Item} {r : BResult}
    {s : List Item} (hs : s.Sublist items) (hr : BGood cap items r) :
    BGood cap items (bvisit cap r s) := by
  unfold bvisit
  by_cases h : s ≠ [] ∧ weightSum s > cap
  · rwa [if_pos h]
  · rw [if_neg h]
    by_cases h1 : costSum s > r.maxCost
    · rw [if_pos h1]
      refine ⟨rfl, hs, ?_⟩
      rcases not_and_or.1 h with h2 | h2
      · exact Or.inr (not_not.1 h2)
      · exact Or.inl (le_of_not_lt h2)
    · rwa [if_neg h1]

theorem bvisit_mono (cap : ℚ) (r : BResult) (s : List Item) :
    r.maxCost ≤ (bvisit cap r s).maxCost := by
  unfold bvisit
  by_cases h : s ≠ [] ∧ weightSum s > cap
  · rw [if_pos h]
  · rw [if_neg h]
    by_cases h1 : costSum s > r.maxCost
    · rw [if_pos h1]
      exact le_of_lt h1
    · rw [if_neg h1]

theorem bfoldl_mono (cap : ℚ) :
    ∀ (V : List (List Item)) (r : BResult),
      r.maxCost ≤ (V.foldl (bvisit cap) r).maxCost := by
  intro V
  induction V with
  | nil => intro r; exact le_refl _
  | cons v V ih =>
      intro r
      rw [List.foldl_cons]
      exact le_trans (bvisit_mono cap r v) (ih (bvisit cap r v))

theorem bvisit_self {cap : ℚ} {s : List Item}
    (h : weightSum s ≤ cap ∨ s = []) (r : BResult) :
    costSum s ≤ (bvisit cap r s).maxCost := by
  unfold bvisit
  have hcond : ¬(s ≠ [] ∧ weightSum s > cap) := by
    rcases h with h | h
    · exact fun hc => absurd hc.2 (not_lt.2 h)
    · exact fun hc => hc.1 h
  rw [if_neg hcond]
  by_cases h1 : costSum s > r.maxCost
  · rw [if_pos h1]
  · rw [if_neg h1]
    exact le_of_not_lt h1

theorem bfoldl_guarantee (cap : ℚ) :
    ∀ (V : List (List Item)) (r : BResult) (s : List Item), s ∈ V →
      (weightSum s ≤ cap ∨ s = []) →
      costSum s ≤ (V.foldl (bvisit cap) r).maxCost := by
  intro V
  induction V with
  | nil => intro r s hs; exact absurd hs (List.not_mem_nil s)
  | cons v V ih =>
      intro r s hs hfeas
      rw [List.foldl_cons]
      rcases List.mem_cons.1 hs with rfl | hs
      · exact le_trans (bvisit_self hfeas r) (bfoldl_mono cap V (bvisit cap r s))
      · exact ih (bvisit cap r v) s hs hfeas

theorem bfoldl_good {cap : ℚ} {items : List Item} :
    ∀ (V : List (List Item)) (r : BResult), (∀ s ∈ V, s.Sublist items) →
      BGood cap items r → BGood cap items (V.foldl (bvisit cap) r) := by
  intro V
  induction V with
  | nil => intro r _ hr; exact hr
  | cons v V ih =>
      intro r hV hr
      rw [List.foldl_cons]
      exact ih (bvisit cap r v)
        (fun s hs => hV s (List.mem_cons_of_mem _ hs))
        (bvisit_good (hV v (List.mem_cons_self _ _)) hr)

theorem bselect_good {items : List Item} {cap : ℚ}
    (hw : ∀ x ∈ items, 0 ≤ x.weight) :
    BGood cap items (bSelect items cap) := by
  rw [bSelect_eq_foldl hw]
  exact bfoldl_good (bdfs items) bInit (fun s hs => mem_bdfs.1 hs)
    ⟨rfl, List.nil_sublist _, Or.inr rfl⟩

theorem bselect_guarantee {items : List Item} {cap : ℚ}
    (hw : ∀ x ∈ items, 0 ≤ x.weight) (S : List Item) (hS : S.Sublist items)
    (hfeas : weightSum S ≤ cap) :
    costSum S ≤ (bSelect items cap).maxCost := by
  rw [bSelect_eq_foldl hw]
  exact bfoldl_guarantee cap (bdfs items) bInit S (mem_bdfs.2 hS)
    (Or.inl hfeas)

theorem bselect_maxCost_nonneg {items : List Item} {cap : ℚ}
    (hw : ∀ x ∈ items, 0 ≤ x.weight) : 0 ≤ (bSelect items cap).maxCost := by
  rw [bSelect_eq_foldl hw]
  simpa [bInit] using bfoldl_mono cap (bdfs items) bInit

theorem select_cost_consistent {items : List Item} {cap : ℚ}
    (hw : ∀ x ∈ items, 0 ≤ x.weight) :
    (select items cap).maxCost = costSum (select items cap).maxSelectedItems := by
  rcases lt_or_le cap 0 with hc | hc
  · rw [select_of_neg hc]
    rfl
  · exact (select_good hc hw).2.1

theorem select_maxCost_nonneg {items : List Item} {cap : ℚ}
    (hw : ∀ x ∈ items, 0 ≤ x.weight) : 0 ≤ (select items cap).maxCost := by
  rcases lt_or_le cap 0 with hc | hc
  · rw [select_of_neg hc]
    norm_num [initResult]
  · have h := (foldl_visit_improves cap (dfsList items) initResult).1
    rw [select_eq_foldl cap items hw]
    simpa [initResult] using h

/-- C4 counterexample: on capacity 5 with items (1, weight 5, cost 10) and
(2, weight 3, cost 10) the inclusion-order selector of packer.ts returns
item 2 (the weight tie-break) while the binary include/exclude variant keeps
the first maximal-cost subset it finds, item 1 — the two variants do not
select the same set of item ids. -/
theorem c4_counterexample :
    (select [Item.mk 1 5 10, Item.mk 2 3 10] 5).maxSelectedItems.map
        Item.index = [2] ∧
      (bSelect [Item.mk 1 5 10, Item.mk 2 3 10] 5).maxSelectedItems.map
        Item.index = [1] ∧
      ¬ ((select [Item.mk 1 5 10, Item.mk 2 3 10] 5).maxSelectedItems.map
            Item.index =
          (bSelect [Item.mk 1 5 10, Item.mk 2 3 10] 5).maxSelectedItems.map
            Item.index) := by
  refine ⟨by decide, by decide, by decide⟩

/-- C4 amended: for every capacity and item sequence with non-negative
weights the two enumeration variants agree on the optimal value — the
maximal cost and the cost of the selected subsets coincide — though not
necessarily on the identity of the selected items when several subsets
attain that cost. -/
theorem c4_equal_maxCost (items : List Item) (cap : ℚ)
    (hw : ∀ x ∈ items, 0 ≤ x.weight) :
    (select items cap).maxCost = (bSelect items cap).maxCost ∧
      costSum (select items cap).maxSelectedItems =
        costSum (bSelect items cap).maxSelectedItems := by
  have hb : BGood cap items (bSelect items cap) := bselect_good hw
  have h1 : (bSelect items cap).maxCost ≤ (select items cap).maxCost := by
    rcases hb.2.2 with hfe | hemp
    · rw [hb.1]
      exact (select_guarantee hw _ hb.2.1 hfe).1
    · rw [hb.1, hemp]
      simpa using select_maxCost_nonneg hw
  have h2 : (select items cap).maxCost ≤ (bSelect items cap).maxCost := by
    rcases lt_or_le cap 0 with hc | hc
    · rw [select_of_neg hc]
      simpa [initResult] using bselect_maxCost_nonneg hw
    · have hg := select_good hc hw
      rw [hg.2.1]
      exact bselect_guarantee hw _ hg.2.2.2 hg.2.2.1
  have heq := le_antisymm h2 h1
  refine ⟨heq, ?_⟩
  rw [← select_cost_consistent hw, ← hb.1, heq]

theorem selectF_sound :
    ∀ fuel : ℕ,
      (∀ items : List Item, items.length < fuel →
        ∀ (cap tw tc : ℚ) (sel : List Item) (r : ResultObj),
          selectItemsF fuel items cap tw tc sel r =
            some (selectItems items cap tw tc sel r)) ∧
      (∀ items : List Item, items.length ≤ fuel →
        ∀ (cap tw tc : ℚ) (sel : List Item) (r : ResultObj),
          selectLoopF fuel items cap tw tc sel r =
            some (selectLoop cap items tw tc sel r)) := by
  intro fuel
  induction fuel with
  | zero =>
      constructor
      · intro items h
        exact absurd h (Nat.not_lt_zero _)
      · intro items h cap tw tc sel r
        have hnil : items = [] := List.eq_nil_of_length_eq_zero (Nat.le_zero.1 h)
        subst hnil
        rw [selectLoopF]
        rfl
  | succ fuel ih =>
      have hP : ∀ items : List Item, items.length < fuel + 1 →
          ∀ (cap tw tc : ℚ) (sel : List Item) (r : ResultObj),
            selectItemsF (fuel + 1) items cap tw tc sel r =
              some (selectItems items cap tw tc sel r) := by
        intro items hlen cap tw tc sel r
        rw [selectItemsF, selectItems_cons]
        by_cases h : tw > cap
        · rw [if_pos h, if_pos h]
        · rw [if_neg h, if_neg h]
          exact ih.2 items (Nat.lt_succ_iff.1 hlen) cap tw tc sel
            (update tc tw sel r)
      refine ⟨hP, ?_⟩
      intro items
      induction items with
      | nil =>
          intro _ cap tw tc sel r
          rw [selectLoopF]
          rfl
      | cons x remaining ihx =>
          intro hlen cap tw tc sel r
          have h1 : remaining.length < fuel + 1 := by
            rw [List.length_cons] at hlen
            omega
          rw [selectLoopF]
          rw [hP remaining h1 cap (tw + x.weight) (tc + x.cost) (sel ++ [x]) r]
          show selectLoopF (fuel + 1) remaining cap tw tc sel
              (selectItems remaining cap (tw + x.weight) (tc + x.cost)
                (sel ++ [x]) r) =
            some (selectLoop cap (x :: remaining) tw tc sel r)
          rw [ihx (le_of_lt h1) cap tw tc sel _]
          rw [selectLoop_cons]

/-- C9 Termination: the fuel-indexed transcription of the original mutually
recursive selectItems never exhausts its fuel once the fuel exceeds the item
count — every nested selectItems call receives the strictly shorter suffix
items.slice(i + 1), so the recursion depth is bounded by the length of the
item list and the search terminates with the value of the total function
selectItems. -/
theorem c9_termination (fuel : ℕ) (items : List Item) (cap tw tc : ℚ)
    (sel : List Item) (r : ResultObj) (hfuel : items.length < fuel) :
    selectItemsF fuel items cap tw tc sel r =
      some (selectItems items cap tw tc sel r) :=
  (selectF_sound fuel).1 items hfuel cap tw tc sel r

theorem c9_termination_witness :
    selectItemsF 2 [Item.mk 1 1 1] 1 0 0 [] initResult =
      some (selectItems [Item.mk 1 1 1] 1 0 0 [] initResult) :=
  c9_termination 2 [Item.mk 1 1 1] 1 0 0 [] initResult (by norm_num)

theorem c4_equal_maxCost_witness :
    (select [Item.mk 1 5 10, Item.mk 2 3 10] 5).maxCost =
        (bSelect [Item.mk 1 5 10, Item.mk 2 3 10] 5).maxCost ∧
      costSum (select [Item.mk 1 5 10, Item.mk 2 3 10] 5).maxSelectedItems =
        costSum (bSelect [Item.mk 1 5 10, Item.mk 2 3 10] 5).maxSelectedItems :=
  c4_equal_maxCost [Item.mk 1 5 10, Item.mk 2 3 10] 5 (by decide)

theorem findClose_length :
    ∀ {l content r : List Char}, findClose l = some (content, r) →
      r.length < l.length := by
  intro l
  induction l with
  | nil => intro content r h; simp [findClose] at h
  | cons c rest ih =>
      intro content r h
      rw [findClose] at h
      by_cases hc : c = ')'
      · rw [if_pos hc] at h
        injection h with h
        injection h with h1 h2
        subst h2
        exact Nat.lt_succ_self _
      · rw [if_neg hc] at h
        by_cases hn : isLineTerminator c
        · rw [if_pos hn] at h
          exact absurd h (by simp)
        · rw [if_neg hn] at h
          rcases hfc : findClose rest with _ | ⟨ct, r'⟩ <;> rw [hfc] at h
          · exact absurd h (by simp)
          · injection h with h
            injection h with h1 h2
            subst h2
            exact Nat.lt_succ_of_lt (ih hfc)

theorem matchGroupsF_congr :
    ∀ (f : ℕ) {g : ℕ} {s : List Char}, s.length ≤ f → s.length ≤ g →
      matchGroupsF f s = matchGroupsF g s := by
  intro f
  induction f with
  | zero =>
      intro g s h1 _
      have hnil : s = [] := List.eq_nil_of_length_eq_zero (Nat.le_zero.1 h1)
      subst hnil
      cases g <;> rfl
  | succ f ih =>
      intro g s h1 h2
      cases s with
      | nil => cases g <;> rfl
      | cons c rest =>
          rw [List.length_cons] at h1 h2
          cases g with
          | zero => exact absurd h2 (by omega)
          | succ g' =>
              rw [matchGroupsF, matchGroupsF]
              by_cases hc : c = '('
              · rw [if_pos hc, if_pos hc]
                rcases hfc : findClose rest with _ | ⟨ct, r⟩
                · exact ih (by omega) (by omega)
                · have hr : r.length < rest.length := findClose_length hfc
                  have heq : matchGroupsF f r = matchGroupsF g' r :=
                    ih (by omega) (by omega)
                  show ('(' :: (ct ++ [')'])) :: matchGroupsF f r =
                    ('(' :: (ct ++ [')'])) :: matchGroupsF g' r
                  rw [heq]
              · rw [if_neg hc, if_neg hc]
                exact ih (by omega) (by omega)

theorem matchGroups_cons_not {c : Char} {rest : List Char} (hc : c ≠ '(') :
    matchGroups (c :: rest) = matchGroups rest := by
  show matchGroupsF (rest.length + 1) (c :: rest) = matchGroups rest
  rw [matchGroupsF, if_neg hc]
  rfl

theorem matchGroups_cons_open (rest : List Char) :
    matchGroups ('(' :: rest) =
      match findClose rest with
      | some (content, r) => ('(' :: (content ++ [')'])) :: matchGroups r
      | none => matchGroups rest := by
  show matchGroupsF (rest.length + 1) ('(' :: rest) = _
  rw [matchGroupsF, if_pos rfl]
  rcases hfc : findClose rest with _ | ⟨ct, r⟩
  · rfl
  · have hr : r.length < rest.length := findClose_length hfc
    have heq : matchGroupsF rest.length r = matchGroupsF r.length r :=
      matchGroupsF_congr rest.length (le_of_lt hr) (le_refl _)
    show ('(' :: (ct ++ [')'])) :: matchGroupsF rest.length r =
      ('(' :: (ct ++ [')'])) :: matchGroups r
    rw [heq]
    rfl

theorem matchGroups_append_of_no_open {t : List Char}
    (ht : ∀ c ∈ t, c ≠ '(') (s : List Char) :
    matchGroups (t ++ s) = matchGroups s := by
  induction t with
  | nil => rfl
  | cons c t ih =>
      rw [List.cons_append,
        matchGroups_cons_not (ht c (List.mem_cons_self _ _))]
      exact ih (fun d hd => ht d (List.mem_cons_of_mem _ hd))

theorem parseItemsGroups_error :
    ∀ {gs : List (List Char)} {g : List Char}, g ∈ gs →
      parseOneItem g = none →
      parseItemsGroups gs = Except.error ("Invalid item format") := by
  intro gs
  induction gs with
  | nil => intro g hg; exact absurd hg (List.not_mem_nil g)
  | cons h gs ih =>
      intro g hg hbad
      rcases List.mem_cons.1 hg with rfl | hg
      · rw [parseItemsGroups, hbad]
      · rw [parseItemsGroups]
        rcases hph : parseOneItem h with _ | it
        · rfl
        · rw [ih hg hbad]
          rfl

theorem parsePackageLimit_pos {s : List Char} {n : ℤ}
    (h : parsePackageLimit s = some n) : 0 < n := by
  rcases hp : parseInt10 (trimChars s) with _ | m
  · rw [parsePackageLimit] at h
    rw [hp] at h
    exact absurd h (by simp)
  · simp only [parsePackageLimit, hp] at h
    by_cases hm : m ≤ 0
    · rw [if_pos hm] at h
      exact absurd h (by simp)
    · rw [if_neg hm] at h
      injection h with h
      subst h
      exact lt_of_not_le hm

theorem select_nil_of_nonneg {cap : ℚ} (hc : 0 ≤ cap) :
    (select ([] : List Item) cap).maxSelectedItems = [] := by
  rw [select, selectItems_nil, if_neg (not_lt.2 hc)]
  unfold update initResult
  norm_num

theorem pack_aborts_of_mem :
    ∀ {lines : List (List Char)} {l : List Char} {e : String}, l ∈ lines →
      processLine l = Except.error e →
      ∃ msg, packLines lines = Except.error msg := by
  intro lines
  induction lines with
  | nil => intro l e hl; exact absurd hl (List.not_mem_nil l)
  | cons h rest ih =>
      intro l e hl herr
      rcases List.mem_cons.1 hl with rfl | hl
      · exact ⟨e, by rw [packLines, herr]⟩
      · rw [packLines]
        rcases hph : processLine h with e' | out
        · exact ⟨e', rfl⟩
        · obtain ⟨msg, hmsg⟩ := ih hl herr
          exact ⟨msg, by rw [hmsg]; rfl⟩

/-- C10 Silent tokenization: parseItems considers only the parenthesised
groups matched by the global regex — text outside such groups is ignored
without error (dropping it leaves the parse unchanged), a string with no
group at all parses to the empty item list, and a line with a valid capacity
whose items section has no group produces the output '-' rather than a
MalformedItem failure. -/
theorem c10_silent_tokenization :
    (∀ t s : List Char, (∀ c ∈ t, c ≠ '(') →
        parseItems (t ++ s) = parseItems s) ∧
      (∀ s : List Char, matchGroups s = [] →
        parseItems s = Except.ok []) ∧
      (∀ (line itemsStr : List Char) (cap : ℤ),
        parsePackageLimit ((line.splitOn ':').headD []) = some cap →
        (line.splitOn ':').get? 1 = some itemsStr →
        matchGroups itemsStr = [] →
        processLine line = Except.ok ['-']) := by
  refine ⟨?_, ?_, ?_⟩
  · intro t s ht
    rw [parseItems, parseItems, matchGroups_append_of_no_open ht]
  · intro s hs
    rw [parseItems, hs]
    rfl
  · intro line itemsStr cap hcap hget hq
    have hok : parseItems itemsStr = Except.ok [] := by
      rw [parseItems, hq]
      rfl
    have hcapq : (0 : ℚ) ≤ ((cap : ℚ)) := by
      have hpos := parsePackageLimit_pos hcap
      exact_mod_cast le_of_lt hpos
    simp only [processLine, hcap, hget, hok, List.all_nil, List.map_nil,
      if_true]
    rw [select_nil_of_nonneg hcapq]
    rfl

theorem c10_silent_tokenization_witness :
    parseItems ((("xy").toList) ++ (("(1,2,€3)").toList)) =
        parseItems (("(1,2,€3)").toList) ∧
      parseItems (("abc").toList) = Except.ok [] ∧
      processLine (("5 : no groups").toList) = Except.ok ['-'] :=
  ⟨c10_silent_tokenization.1 (("xy").toList) (("(1,2,€3)").toList) (by decide),
   c10_silent_tokenization.2.1 (("abc").toList) (by decide),
   c10_silent_tokenization.2.2 (("5 : no groups").toList)
     ((" no groups").toList) 5 (by decide) (by decide) (by decide)⟩

/-- C7 MalformedItem is fatal: on a line whose capacity token is a valid
positive integer, if any matched parenthesised group fails the item pattern,
parseItems throws APIException('Invalid item format'), processLine
propagates it, and the whole run of pack fails with an error instead of
emitting '-' for that line or skipping the token. -/
theorem c7_malformed_item_fatal (line itemsStr g : List Char) (cap : ℤ)
    (hcap : parsePackageLimit ((line.splitOn ':').headD []) = some cap)
    (hget : (line.splitOn ':').get? 1 = some itemsStr)
    (hg : g ∈ matchGroups itemsStr) (hbad : parseOneItem g = none) :
    processLine line = Except.error ("Invalid item format") ∧
      ∀ pre post : List (List Char),
        ∃ msg, pack (pre ++ line :: post) = Except.error msg := by
  have herr : parseItems itemsStr = Except.error ("Invalid item format") := by
    rw [parseItems]
    exact parseItemsGroups_error hg hbad
  have hpl : processLine line = Except.error ("Invalid item format") := by
    simp only [processLine, hcap, hget, herr]
  refine ⟨hpl, ?_⟩
  intro pre post
  obtain ⟨msg, hmsg⟩ := pack_aborts_of_mem
    (List.mem_append_right pre (List.mem_cons_self line post)) hpl
  exact ⟨msg, by rw [pack, hmsg]; rfl⟩

theorem c7_malformed_item_fatal_witness :
    processLine (("10 : (1,2,15)").toList) =
        Except.error ("Invalid item format") ∧
      ∃ msg, pack [("10 : (1,2,15)").toList] = Except.error msg := by
  have h := c7_malformed_item_fatal (("10 : (1,2,15)").toList)
    ((" (1,2,15)").toList) (("(1,2,15)").toList) 10 (by decide) (by decide)
    (by decide) (by decide)
  exact ⟨h.1, h.2 [] []⟩

/-- C6 counterexample: the line 8 : (1,15.3,€34) has the valid positive
capacity 8, yet pack emits '-' for it (the sole item does not fit, so the
empty selection prints as '-') and continues with the next line — refuting
the claim that '-' is emitted exactly when the capacity token fails to parse
as a positive integer. -/
theorem c6_counterexample :
    parsePackageLimit (((("8 : (1,15.3,€34)").toList).splitOn ':').headD []) =
        some 8 ∧
      processLine (("8 : (1,15.3,€34)").toList) = Except.ok ['-'] ∧
      packLines [("8 : (1,15.3,€34)").toList, ("3 : (1,1,€5)").toList] =
        Except.ok [['-'], ['1']] :=
  ⟨by decide, by rfl, by rfl⟩

/-- C6 amended: whenever the capacity token of a line does not parse as a
positive integer, pack emits '-' for that line and continues with the
subsequent lines; when it does parse, the line can be rejected only on
account of its items section (a missing items section or an item-parse
failure), never its capacity — though '-' may still be emitted for such a
line when the optimal selection is empty. -/
theorem c6_capacity_recovery :
    (∀ (line : List Char) (rest : List (List Char)),
        parsePackageLimit ((line.splitOn ':').headD []) = none →
        processLine line = Except.ok ['-'] ∧
          packLines (line :: rest) =
            (packLines rest).map (fun outs => ['-'] :: outs)) ∧
      (∀ (line : List Char) (cap : ℤ),
        parsePackageLimit ((line.splitOn ':').headD []) = some cap →
        ((∃ e, processLine line = Except.error e) ↔
          ((line.splitOn ':').get? 1 = none ∨
            ∃ itemsStr, (line.splitOn ':').get? 1 = some itemsStr ∧
              ∃ e, parseItems itemsStr = Except.error e))) := by
  constructor
  · intro line rest hnone
    have hpl : processLine line = Except.ok ['-'] := by
      simp only [processLine, hnone]
    refine ⟨hpl, ?_⟩
    show (match processLine line with
          | Except.error e => Except.error e
          | Except.ok out => (packLines rest).map (fun outs => out :: outs)) = _
    rw [hpl]
  · intro line cap hcap
    rcases hget : (line.splitOn ':').get? 1 with _ | itemsStr
    · have hpl : processLine line = Except.error ("Invalid item format") := by
        simp only [processLine, hcap, hget]
      exact iff_of_true ⟨_, hpl⟩ (Or.inl rfl)
    · rcases hpi : parseItems itemsStr with e | pitems
      · have hpl : processLine line = Except.error e := by
          simp only [processLine, hcap, hget, hpi]
        exact iff_of_true ⟨e, hpl⟩ (Or.inr ⟨itemsStr, rfl, e, hpi⟩)
      · have hpl : ∀ e, ¬ processLine line = Except.error e := by
          intro e
          simp only [processLine, hcap, hget, hpi]
          split <;> simp
        refine iff_of_false ?_ ?_
        · rintro ⟨e, he⟩
          exact hpl e he
        · rintro (h | ⟨is', his', e, hpe⟩)
          · exact Option.noConfusion h
          · injection his' with his'
            subst his'
            rw [hpi] at hpe
            exact Except.noConfusion hpe

theorem c6_capacity_recovery_witness :
    processLine (("x : (1,1,€1)").toList) = Except.ok ['-'] ∧
      packLines [("x : (1,1,€1)").toList] =
        (packLines []).map (fun outs => ['-'] :: outs) :=
  c6_capacity_recovery.1 (("x : (1,1,€1)").toList) [] (by decide)

end Packer
